import Mathlib

/-!
Verification of the ForestWall-ListGen deduplication core against its design
specification.  The Python sources under `src/dedupe/` are shallowly embedded:

* `SimpleSetDedupe` (src/dedupe/simpleSet.py) — flat lowercased string set;
* `RadixDedupe` (src/dedupe/radix.py) — CIDR aggregation on top of two
  pytricia tries.  pytricia itself is a C extension; its observable key-set
  semantics (longest-match membership for `in`, exact-key `delete` raising
  `KeyError` when absent, `children` returning the stored strictly more
  specific keys) is modelled by a duplicate-free list of stored networks;
* `DomainTrie` / `DomainTrieDedupe` (src/dedupe/domainTrie.py, domain.py) —
  label-reversed trie with terminal and wildcard markers;
* the `dedupe.get` factory (src/dedupe/__init__.py).

Machine integers and parsed IP networks are modelled with `Nat` arithmetic
(`addr / 2 ^ (bits - plen)` extracts the stored high bits); Python string
operations (`str.lower`, `sorted`, `split`) are modelled by executable
character-list functions with the same code-point semantics.
-/

namespace ForestWall

/-! ### Python string primitives -/

/-- Python `str.lower` on one character (ASCII case mapping `A..Z → a..z`). -/
def lowerChar (c : Char) : Char :=
  if 65 ≤ c.toNat ∧ c.toNat ≤ 90 then Char.ofNat (c.toNat + 32) else c

/-- Python `str.lower`. -/
def pyLower (s : String) : String := ⟨s.data.map lowerChar⟩

/-- Python string comparison: lexicographic on code points. -/
def charListLe : List Char → List Char → Bool
  | [], _ => true
  | _ :: _, [] => false
  | a :: as, b :: bs =>
    if a.toNat < b.toNat then true
    else if b.toNat < a.toNat then false
    else charListLe as bs

/-- `a <= b` for Python strings. -/
def pyStrLe (a b : String) : Bool := charListLe a.data b.data

/-- The ordering relation used to model Python `sorted` on strings. -/
def PyLe (a b : String) : Prop := pyStrLe a b = true

instance (a b : String) : Decidable (PyLe a b) := by unfold PyLe; infer_instance

/-- Python `sorted` on a list of strings (stable, code-point lexicographic). -/
def pySorted (l : List String) : List String := List.insertionSort PyLe l

/-! ### Parsed IP networks and the pytricia model

`parse_cidr` (src/dedupe/radix.py lines 15-27) turns a valid CIDR string into
an `ipaddress` network object: an address family (4 or 6), a network address
whose host bits are zeroed by `strict=False`, and a prefix length.  `Net` is
that parsed value; `Net.Valid` states exactly the canonicality guaranteed by a
successful `parse_cidr`. -/

structure Net where
  version : Nat
  addr : Nat
  plen : Nat
deriving DecidableEq

/-- 32 bits for IPv4, 128 for IPv6 (the pytricia constructor arguments). -/
def Net.maxbits (n : Net) : Nat := if n.version = 4 then 32 else 128

/-- What `parse_cidr` guarantees of its result: a real family, a prefix length
within range, and an address below `2 ^ maxbits` whose host bits are zero. -/
def Net.Valid (n : Net) : Prop :=
  (n.version = 4 ∨ n.version = 6) ∧ n.plen ≤ n.maxbits ∧
    n.addr < 2 ^ n.maxbits ∧ n.addr % 2 ^ (n.maxbits - n.plen) = 0

instance (n : Net) : Decidable n.Valid := by unfold Net.Valid; infer_instance

/-- `p` covers `q`: same family and the first `p.plen` bits of the two
addresses agree.  This is the containment order a patricia trie implements:
`patricia_search_best` finds a stored `p` with `Covers p q`. -/
def Covers (p q : Net) : Prop :=
  p.version = q.version ∧ p.plen ≤ q.plen ∧
    q.addr / 2 ^ (p.maxbits - p.plen) = p.addr / 2 ^ (p.maxbits - p.plen)

instance (p q : Net) : Decidable (Covers p q) := by unfold Covers; infer_instance

/-- Strict containment: `p` covers `q` and is not `q` itself. -/
def StrictCovers (p q : Net) : Prop := Covers p q ∧ p ≠ q

instance (p q : Net) : Decidable (StrictCovers p q) := by
  unfold StrictCovers; infer_instance

/-- pytricia `net in pt` (`__contains__`): longest-match lookup, true iff some
stored key covers the query. -/
def ptCovered (pt : List Net) (net : Net) : Bool :=
  pt.any fun p => decide (Covers p net)

/-- pytricia `pt.children(net)`: the stored keys strictly more specific than
`net`; `net` itself is not included. -/
def ptChildren (pt : List Net) (net : Net) : List Net :=
  pt.filter fun q => decide (StrictCovers net q)

/-- pytricia `pt.insert(net, value)`: the key set gains `net` if absent. -/
def ptInsert (pt : List Net) (net : Net) : List Net :=
  if net ∈ pt then pt else net :: pt

/-- pytricia `pt.delete(key)`: removes the exact key; `none` models the
`KeyError` raised when the exact key is not stored. -/
def ptDelete (pt : List Net) (net : Net) : Option (List Net) :=
  if net ∈ pt then some (pt.filter fun q => decide (q ≠ net)) else none

/-- Decimal rendering of a `Nat` (Python `str`). -/
def natRepr (n : Nat) : String := toString n

/-- The canonical text pytricia reports for a stored key via `keys()`:
dotted-quad `a.b.c.d/plen` for IPv4; for IPv6 a hex-group form (modelled
without zero-compression — the compressed spelling pytricia prints does not
matter to any property proved here). -/
def Net.render (n : Net) : String :=
  if n.version = 4 then
    natRepr (n.addr / 2 ^ 24 % 256) ++ "." ++ natRepr (n.addr / 2 ^ 16 % 256) ++ "." ++
      natRepr (n.addr / 2 ^ 8 % 256) ++ "." ++ natRepr (n.addr % 256) ++ "/" ++ natRepr n.plen
  else
    String.intercalate ":"
      (((List.range 8).map fun i => natRepr (n.addr / 2 ^ (16 * (7 - i)) % 65536))) ++
      "/" ++ natRepr n.plen

/-! ### RadixDedupe (src/dedupe/radix.py) -/

structure RadixDedupe where
  pt_v4 : List Net
  pt_v6 : List Net
deriving DecidableEq

/-- `RadixDedupe.__init__`. -/
def RadixDedupe.empty : RadixDedupe := ⟨[], []⟩

/-- `RadixDedupe.__get_radix__`: choose the per-family trie. -/
def RadixDedupe.getRadix (s : RadixDedupe) (net : Net) : List Net :=
  if net.version = 4 then s.pt_v4 else s.pt_v6

/-- Write back the per-family trie chosen by `__get_radix__`. -/
def RadixDedupe.setRadix (s : RadixDedupe) (net : Net) (pt : List Net) : RadixDedupe :=
  if net.version = 4 then { s with pt_v4 := pt } else { s with pt_v6 := pt }

/-- The body of `RadixDedupe.add` acting on one family's trie: if the query is
already covered return `False`; otherwise insert it and delete every stored
child (`for child in pt.children(net): pt.delete(child)`). -/
def famAdd (pt : List Net) (net : Net) : Bool × List Net :=
  if ptCovered pt net then (false, pt)
  else
    (true, (ptChildren (ptInsert pt net) net).foldl
      (fun acc c => acc.filter fun q => decide (q ≠ c)) (ptInsert pt net))

/-- `RadixDedupe.add` on the parsed network (lines 50-63 of radix.py). -/
def RadixDedupe.add (s : RadixDedupe) (net : Net) : Bool × RadixDedupe :=
  let r := famAdd (s.getRadix net) net
  (r.1, s.setRadix net r.2)

/-- `RadixDedupe.addMany`: fold `add` over the inputs, discarding results. -/
def RadixDedupe.addMany (s : RadixDedupe) (cidrs : List Net) : RadixDedupe :=
  cidrs.foldl (fun acc c => (acc.add c).2) s

/-- `RadixDedupe.remove`: `pt.delete(cidr)` on the parsed network; `none`
models the `KeyError` pytricia raises when the exact key is absent. -/
def RadixDedupe.remove (s : RadixDedupe) (net : Net) : Option RadixDedupe :=
  match ptDelete (s.getRadix net) net with
  | some pt2 => some (s.setRadix net pt2)
  | none => none

/-- `RadixDedupe.contains`: `cidr in pt`, pytricia's longest-match lookup. -/
def RadixDedupe.contains (s : RadixDedupe) (net : Net) : Bool :=
  ptCovered (s.getRadix net) net

/-- `RadixDedupe.all`: `sorted(list(pt_v4.keys()) + list(pt_v6.keys()))`. -/
def RadixDedupe.all (s : RadixDedupe) : List String :=
  pySorted (s.pt_v4.map Net.render ++ s.pt_v6.map Net.render)

/-- `RadixDedupe.__len__`. -/
def RadixDedupe.size (s : RadixDedupe) : Nat := s.pt_v4.length + s.pt_v6.length

/-! ### SimpleSetDedupe (src/dedupe/simpleSet.py) -/

structure SimpleSetDedupe where
  seen : List String
deriving DecidableEq

/-- `SimpleSetDedupe.__init__`. -/
def SimpleSetDedupe.empty : SimpleSetDedupe := ⟨[]⟩

/-- `SimpleSetDedupe.add`: lowercase, report and record membership. -/
def SimpleSetDedupe.add (s : SimpleSetDedupe) (item : String) : Bool × SimpleSetDedupe :=
  let item := pyLower item
  if item ∈ s.seen then (false, s) else (true, ⟨item :: s.seen⟩)

/-- `SimpleSetDedupe.remove`: lowercase then `set.discard` (silent). -/
def SimpleSetDedupe.remove (s : SimpleSetDedupe) (item : String) : SimpleSetDedupe :=
  ⟨s.seen.filter fun q => decide (q ≠ pyLower item)⟩

/-- `SimpleSetDedupe.contains`. -/
def SimpleSetDedupe.contains (s : SimpleSetDedupe) (item : String) : Bool :=
  decide (pyLower item ∈ s.seen)

/-- `SimpleSetDedupe.all`: `sorted(list(self.seen))`. -/
def SimpleSetDedupe.all (s : SimpleSetDedupe) : List String := pySorted s.seen

/-! ### DomainTrie (src/dedupe/domainTrie.py)

Each Python dict node carries up to two marker keys (`__terminal__`,
`__wildcard__`) plus one child dict per label; `DNode` keeps the markers as
`Bool` fields and the children as an association list with distinct keys
(dict semantics).  Domain labels produced by `_normalize` never equal the two
reserved marker strings for any well-formed domain, so separating the markers
from the child map is faithful. -/

inductive DNode where
  | node (term : Bool) (wild : Bool) (children : List (String × DNode))

/-- The `__terminal__` marker of a node. -/
def DNode.term : DNode → Bool
  | .node t _ _ => t

/-- The `__wildcard__` marker of a node. -/
def DNode.wild : DNode → Bool
  | .node _ w _ => w

/-- The labelled children of a node. -/
def DNode.children : DNode → List (String × DNode)
  | .node _ _ cs => cs

/-- A fresh `{}` node. -/
def DNode.empty : DNode := .node false false []

/-- Python `not child`: the dict has no markers and no children. -/
def DNode.isEmptyNode : DNode → Bool
  | .node t w cs => !t && !w && cs.isEmpty

/-- Dict lookup `node[label]` / `label in node` among the child keys. -/
def lookupChild : List (String × DNode) → String → Option DNode
  | [], _ => none
  | (k, c) :: rest, l => if k = l then some c else lookupChild rest l

/-- Dict write `node[label] = child` (keys stay distinct; a fresh key is
appended, matching dict insertion order). -/
def setChild : List (String × DNode) → String → DNode → List (String × DNode)
  | [], l, c => [(l, c)]
  | (k, c0) :: rest, l, c => if k = l then (k, c) :: rest else (k, c0) :: setChild rest l c

/-- Dict delete `del node[label]`. -/
def removeChildKey : List (String × DNode) → String → List (String × DNode)
  | [], _ => []
  | (k, c0) :: rest, l => if k = l then rest else (k, c0) :: removeChildKey rest l

/-- The walk of `DomainTrie.add` over the reversed label list (lines 25-36):
at each node a wildcard marker aborts with `False` (`none` here — the walk has
mutated nothing at that point, since `setdefault` only found existing nodes);
at the target, a wildcard insert clears the node and sets the wildcard marker,
an exact insert sets the terminal marker.  The Python code then returns
`True` unconditionally. -/
def addGo : DNode → List String → Bool → Option DNode
  | n, [], isWild =>
    if isWild then some (.node false true [])
    else some (.node true n.wild n.children)
  | n, l :: ls, isWild =>
    if n.wild then none
    else
      match addGo ((lookupChild n.children l).getD DNode.empty) ls isWild with
      | none => none
      | some c2 => some (.node n.term n.wild (setChild n.children l c2))

/-- The walk of `DomainTrie.remove` (lines 50-77): locate the exact marker,
clear it, and prune now-empty nodes bottom-up along the path; `none` models
returning `False` with the trie untouched. -/
def removeGo : DNode → List String → Bool → Option DNode
  | n, [], isWild =>
    if isWild then
      if n.wild then some (.node n.term false n.children) else none
    else
      if n.term then some (.node false n.wild n.children) else none
  | n, l :: ls, isWild =>
    match lookupChild n.children l with
    | none => none
    | some c =>
      match removeGo c ls isWild with
      | none => none
      | some c2 =>
        if c2.isEmptyNode then some (.node n.term n.wild (removeChildKey n.children l))
        else some (.node n.term n.wild (setChild n.children l c2))

/-- The walk of `DomainTrie.contains` (lines 83-93): descend one reversed
label at a time; after each descent, a wildcard marker with exactly one label
remaining matches; after the last label the terminal marker decides. -/
def containsGo : DNode → List String → Bool
  | n, [] => n.term
  | n, l :: ls =>
    match lookupChild n.children l with
    | none => false
    | some c => (c.wild && ls.length == 1) || containsGo c ls

/-- Descend along a reversed label path (a straight-line read-only walk). -/
def nodeAt : DNode → List String → Option DNode
  | n, [] => some n
  | n, l :: ls =>
    match lookupChild n.children l with
    | none => none
    | some c => nodeAt c ls

/-- `DomainTrie._count_entries`: nodes carrying a terminal and/or wildcard
marker count once each. -/
def DNode.countEntries (n : DNode) : Nat :=
  match n with
  | DNode.node t w cs =>
    (if t || w then 1 else 0) + (cs.attach.map fun x => DNode.countEntries x.1.2).sum
termination_by sizeOf n
decreasing_by
  obtain ⟨⟨l0, c0⟩, hmem⟩ := x
  have h1 : sizeOf (l0, c0) < _ := List.sizeOf_lt_of_mem hmem
  simp only [Prod.mk.sizeOf_spec] at h1
  simp only [DNode.node.sizeOf_spec]
  omega

/-- `sorted(node.items())`: children in ascending label order (dict keys are
distinct, so only the label is compared). -/
def sortChildren (cs : List (String × DNode)) : List (String × DNode) :=
  List.insertionSort (fun a b => PyLe a.1 b.1) cs

/-- `DomainTrie._iter_recursive`: wildcard form first, then the terminal form,
then the children in sorted label order; `path` holds the reversed labels from
the root, and `'.'.join(reversed(path))` prints them in domain order. -/
def DNode.iterGo (n : DNode) (path : List String) : List String :=
  match n with
  | DNode.node t w cs =>
    (if w then ["*." ++ String.intercalate "." path.reverse] else []) ++
    (if t then [String.intercalate "." path.reverse] else []) ++
    ((sortChildren cs).attach.map fun x => DNode.iterGo x.1.2 (path ++ [x.1.1])).flatten
termination_by sizeOf n
decreasing_by
  obtain ⟨⟨l0, c0⟩, hmem⟩ := x
  unfold sortChildren at hmem
  have hmem2 := ((List.perm_insertionSort _ _).mem_iff).mp hmem
  have h1 : sizeOf (l0, c0) < _ := List.sizeOf_lt_of_mem hmem2
  simp only [Prod.mk.sizeOf_spec] at h1
  simp only [DNode.node.sizeOf_spec]
  omega

structure DomainTrie where
  root : DNode

/-- `DomainTrie.__init__`. -/
def DomainTrie.empty : DomainTrie := ⟨DNode.empty⟩

/-- Python `s.strip('.')`: drop leading and trailing dots. -/
def stripDots (s : String) : String :=
  ⟨((s.data.dropWhile fun c => c = '.').reverse.dropWhile fun c => c = '.').reverse⟩

/-- `DomainTrie._normalize`: strip whitespace, lowercase, strip dots; `none`
models the `ValueError` on an empty result. -/
def dtNormalize (domain : String) : Option String :=
  let cleaned := stripDots (pyLower domain.trim)
  if cleaned = "" then none else some cleaned

/-- The shared head of `DomainTrie.add`/`remove`: normalize, split on dots,
peel a leading `*` label; `none` models either `ValueError`. -/
def dtParse (domain : String) : Option (Bool × List String) :=
  match dtNormalize domain with
  | none => none
  | some cleaned =>
    let originalLabels := cleaned.splitOn "."
    let isWildcard := decide (originalLabels.head? = some "*")
    let effectiveLabels := if isWildcard then originalLabels.tail else originalLabels
    if effectiveLabels.isEmpty then none else some (isWildcard, effectiveLabels)

/-- `DomainTrie.add` after parsing: walk `list(reversed(effective_labels))`. -/
def DomainTrie.addL (t : DomainTrie) (isWild : Bool) (labels : List String) :
    Bool × DomainTrie :=
  match addGo t.root labels.reverse isWild with
  | none => (false, t)
  | some r => (true, ⟨r⟩)

/-- `DomainTrie.add` on the raw domain string. -/
def DomainTrie.add (t : DomainTrie) (domain : String) : Option (Bool × DomainTrie) :=
  match dtParse domain with
  | none => none
  | some (isWild, labels) => some (t.addL isWild labels)

/-- `DomainTrie.remove` after parsing. -/
def DomainTrie.removeL (t : DomainTrie) (isWild : Bool) (labels : List String) :
    Bool × DomainTrie :=
  match removeGo t.root labels.reverse isWild with
  | none => (false, t)
  | some r => (true, ⟨r⟩)

/-- `DomainTrie.remove` on the raw domain string. -/
def DomainTrie.remove (t : DomainTrie) (domain : String) : Option (Bool × DomainTrie) :=
  match dtParse domain with
  | none => none
  | some (isWild, labels) => some (t.removeL isWild labels)

/-- `DomainTrie.contains` after normalization, on the split label list. -/
def DomainTrie.containsL (t : DomainTrie) (labels : List String) : Bool :=
  containsGo t.root labels.reverse

/-- `DomainTrie.contains` on the raw domain string. -/
def DomainTrie.contains (t : DomainTrie) (domain : String) : Option Bool :=
  match dtNormalize domain with
  | none => none
  | some cleaned => some (t.containsL (cleaned.splitOn "."))

/-- `DomainTrie.iter_domains`. -/
def DomainTrie.iterDomains (t : DomainTrie) : List String := t.root.iterGo []

/-- `DomainTrie.__len__`. -/
def DomainTrie.size (t : DomainTrie) : Nat := t.root.countEntries

/-! ### DomainTrieDedupe (src/dedupe/domain.py) -/

structure DomainTrieDedupe where
  trie : DomainTrie

/-- `DomainTrieDedupe.__init__`. -/
def DomainTrieDedupe.empty : DomainTrieDedupe := ⟨DomainTrie.empty⟩

/-- `DomainTrieDedupe.add`: delegate to the trie (which normalizes itself). -/
def DomainTrieDedupe.add (d : DomainTrieDedupe) (item : String) :
    Option (Bool × DomainTrieDedupe) :=
  match d.trie.add item with
  | none => none
  | some (b, t2) => some (b, ⟨t2⟩)

/-- `DomainTrieDedupe.remove`: lowercase, delegate, discard the result. -/
def DomainTrieDedupe.remove (d : DomainTrieDedupe) (item : String) :
    Option DomainTrieDedupe :=
  match d.trie.remove (pyLower item) with
  | none => none
  | some (_, t2) => some ⟨t2⟩

/-- `DomainTrieDedupe.contains`: lowercase then trie lookup. -/
def DomainTrieDedupe.contains (d : DomainTrieDedupe) (item : String) : Option Bool :=
  d.trie.contains (pyLower item)

/-- `DomainTrieDedupe.all`: `sorted(list(self.trie.iter_domains()))`. -/
def DomainTrieDedupe.all (d : DomainTrieDedupe) : List String :=
  pySorted d.trie.iterDomains

/-- `DomainTrieDedupe.__len__`. -/
def DomainTrieDedupe.size (d : DomainTrieDedupe) : Nat := d.trie.size

/-! ### The factory (src/dedupe/__init__.py) -/

inductive Dedupe where
  | radix (s : RadixDedupe)
  | simple (s : SimpleSetDedupe)
  | domain (s : DomainTrieDedupe)

/-- `dedupe.get(kind)`: lowercase the name, match it against the accepted
spellings, and build a fresh empty instance; `none` models the
`ValueError("Unknown dedupe kind")`. -/
def Dedupe.get (kind : String) : Option Dedupe :=
  if pyLower kind = "radix" ∨ pyLower kind = "pytricia" then some (.radix RadixDedupe.empty)
  else if pyLower kind = "set" ∨ pyLower kind = "simpleset" ∨ pyLower kind = "simple" then
    some (.simple SimpleSetDedupe.empty)
  else if pyLower kind = "domain" ∨ pyLower kind = "domaintrie" then
    some (.domain DomainTrieDedupe.empty)
  else none

/-! ### Specification predicates -/

/-- No stored key of the trie is strictly inside another stored key — the
aggregation invariant of `RadixDedupe`. -/
def NoNesting (pt : List Net) : Prop := ∀ p ∈ pt, ∀ q ∈ pt, ¬ StrictCovers p q

/-- `p` has no strict coverer among `xs`. -/
def MaximalIn (xs : List Net) (p : Net) : Prop := ∀ q ∈ xs, ¬ StrictCovers q p

/-- The store `S` of the family-`v` trie holds exactly the version-`v` inputs
seen so far (`xs`) that no other input strictly covers. -/
def IsMaxStore (v : Nat) (xs S : List Net) : Prop :=
  S.Nodup ∧ ∀ p, p ∈ S ↔ p ∈ xs ∧ p.version = v ∧ MaximalIn xs p

/-- Well-formedness of a `RadixDedupe` state: duplicate-free stores holding
canonical networks of the matching family. -/
def RadixDedupe.OK (s : RadixDedupe) : Prop :=
  (s.pt_v4.Nodup ∧ ∀ p ∈ s.pt_v4, p.Valid ∧ p.version = 4) ∧
    (s.pt_v6.Nodup ∧ ∀ p ∈ s.pt_v6, p.Valid ∧ p.version = 6)

/-- The `RadixDedupe` aggregation invariant, per family. -/
def RadixDedupe.Inv (s : RadixDedupe) : Prop :=
  NoNesting s.pt_v4 ∧ NoNesting s.pt_v6

/-- Whether the node reached by the reversed label path `rs` carries the
marker named by `w` (`true` = wildcard, `false` = terminal): "the entry is
stored in the trie", the notion `DomainTrie.remove` tests before mutating. -/
def hasMarker (n : DNode) (rs : List String) (w : Bool) : Bool :=
  match nodeAt n rs with
  | none => false
  | some m => if w then m.wild else m.term

/-! ### Order-theoretic facts about the modelled Python string order -/

instance : IsTotal String PyLe := by
  constructor
  intro a b
  show charListLe a.data b.data = true ∨ charListLe b.data a.data = true
  generalize a.data = as
  generalize b.data = bs
  induction as generalizing bs with
  | nil => exact Or.inl rfl
  | cons x xs ih =>
    cases bs with
    | nil => exact Or.inr rfl
    | cons y ys =>
      rcases Nat.lt_trichotomy x.toNat y.toNat with h | h | h
      · left; simp [charListLe, h]
      · have h1 : ¬ x.toNat < y.toNat := by omega
        have h2 : ¬ y.toNat < x.toNat := by omega
        rcases ih ys with h3 | h3
        · left; simp [charListLe, h1, h2, h3]
        · right; simp [charListLe, h1, h2, h3]
      · right; simp [charListLe, h]

instance : IsTrans String PyLe := by
  constructor
  intro a b c h1 h2
  show charListLe a.data c.data = true
  replace h1 : charListLe a.data b.data = true := h1
  replace h2 : charListLe b.data c.data = true := h2
  generalize a.data = as at h1 ⊢
  generalize b.data = bs at h1 h2
  generalize c.data = cs at h2 ⊢
  induction as generalizing bs cs with
  | nil => rfl
  | cons x xs ih =>
    cases bs with
    | nil => simp [charListLe] at h1
    | cons y ys =>
      cases cs with
      | nil => simp [charListLe] at h2
      | cons z zs =>
        simp only [charListLe] at h1 h2 ⊢
        by_cases hxy : x.toNat < y.toNat
        · by_cases hyz : y.toNat < z.toNat
          · simp [show x.toNat < z.toNat by omega]
          · rw [if_neg hyz] at h2
            by_cases hzy : z.toNat < y.toNat
            · rw [if_pos hzy] at h2; exact absurd h2 (by simp)
            · simp [show x.toNat < z.toNat by omega]
        · rw [if_neg hxy] at h1
          by_cases hyx : y.toNat < x.toNat
          · rw [if_pos hyx] at h1; exact absurd h1 (by simp)
          · rw [if_neg hyx] at h1
            by_cases hyz : y.toNat < z.toNat
            · simp [show x.toNat < z.toNat by omega]
            · rw [if_neg hyz] at h2
              by_cases hzy : z.toNat < y.toNat
              · rw [if_pos hzy] at h2; exact absurd h2 (by simp)
              · rw [if_neg hzy] at h2
                have h3 := ih ys h1 zs h2
                simp [show ¬ x.toNat < z.toNat by omega, show ¬ z.toNat < x.toNat by omega, h3]

instance : IsAntisymm String PyLe := by
  constructor
  intro a b h1 h2
  replace h1 : charListLe a.data b.data = true := h1
  replace h2 : charListLe b.data a.data = true := h2
  have key : ∀ as bs, charListLe as bs = true → charListLe bs as = true → as = bs := by
    intro as
    induction as with
    | nil =>
      intro bs hab hba
      cases bs with
      | nil => rfl
      | cons y ys => simp [charListLe] at hba
    | cons x xs ih =>
      intro bs hab hba
      cases bs with
      | nil => simp [charListLe] at hab
      | cons y ys =>
        simp only [charListLe] at hab hba
        by_cases hxy : x.toNat < y.toNat
        · rw [if_neg (by omega : ¬ y.toNat < x.toNat), if_pos hxy] at hba
          exact absurd hba (by simp)
        · by_cases hyx : y.toNat < x.toNat
          · rw [if_neg (by omega : ¬ x.toNat < y.toNat), if_pos hyx] at hab
            exact absurd hab (by simp)
          · rw [if_neg hxy, if_neg hyx] at hab
            rw [if_neg hyx, if_neg hxy] at hba
            have hchar : x = y := by
              have hn : x.toNat = y.toNat := by omega
              have h4 := congrArg Char.ofNat hn
              rwa [Char.ofNat_toNat, Char.ofNat_toNat] at h4
            rw [hchar, ih ys hab hba]
  have h3 := key a.data b.data h1 h2
  cases a; cases b
  exact congrArg String.mk h3

/-- The model of Python `sorted` produces a sorted list. -/
theorem pySorted_sorted (l : List String) : (pySorted l).Sorted PyLe :=
  List.sorted_insertionSort PyLe l

/-- The model of Python `sorted` permutes its input. -/
theorem pySorted_perm (l : List String) : (pySorted l).Perm l :=
  List.perm_insertionSort PyLe l

/-- Sorting two permutation-equal lists yields the same list. -/
theorem pySorted_congr {l1 l2 : List String} (h : l1.Perm l2) : pySorted l1 = pySorted l2 :=
  List.eq_of_perm_of_sorted
    ((pySorted_perm l1).trans (h.trans (pySorted_perm l2).symm))
    (pySorted_sorted l1) (pySorted_sorted l2)

/-! ### The containment order on canonical networks -/

theorem Covers.refl (p : Net) : Covers p p := ⟨rfl, Nat.le_refl _, rfl⟩

theorem maxbits_eq_of_version {p q : Net} (h : p.version = q.version) :
    p.maxbits = q.maxbits := by
  unfold Net.maxbits; rw [h]

theorem Covers.trans {p q r : Net} (hq : q.plen ≤ q.maxbits)
    (h1 : Covers p q) (h2 : Covers q r) : Covers p r := by
  obtain ⟨hv1, hl1, hb1⟩ := h1
  obtain ⟨hv2, hl2, hb2⟩ := h2
  have hw : p.maxbits = q.maxbits := maxbits_eq_of_version hv1
  refine ⟨hv1.trans hv2, hl1.trans hl2, ?_⟩
  have key : ∀ a : Nat,
      a / 2 ^ (q.maxbits - q.plen) / 2 ^ (q.plen - p.plen) = a / 2 ^ (q.maxbits - p.plen) := by
    intro a
    rw [Nat.div_div_eq_div_mul, ← pow_add]
    congr 2
    omega
  rw [hw]
  calc r.addr / 2 ^ (q.maxbits - p.plen)
      = r.addr / 2 ^ (q.maxbits - q.plen) / 2 ^ (q.plen - p.plen) := (key _).symm
    _ = q.addr / 2 ^ (q.maxbits - q.plen) / 2 ^ (q.plen - p.plen) := by rw [hb2]
    _ = q.addr / 2 ^ (q.maxbits - p.plen) := key _
    _ = p.addr / 2 ^ (q.maxbits - p.plen) := by rw [← hw]; exact hb1

/-- Two canonical networks of equal prefix length that cover each other's bits
are equal (host bits are zero, so the high bits determine the address). -/
theorem Covers.eq_of_plen_eq {p q : Net} (hp : p.Valid) (hq : q.Valid)
    (h : Covers p q) (hl : p.plen = q.plen) : p = q := by
  obtain ⟨hv, _, hb⟩ := h
  have hw : p.maxbits = q.maxbits := maxbits_eq_of_version hv
  have hpm : p.addr % 2 ^ (p.maxbits - p.plen) = 0 := hp.2.2.2
  have hqm : q.addr % 2 ^ (p.maxbits - p.plen) = 0 := by
    have := hq.2.2.2
    rwa [← hw, ← hl] at this
  have hpe : p.addr = 2 ^ (p.maxbits - p.plen) * (p.addr / 2 ^ (p.maxbits - p.plen)) := by
    have := Nat.div_add_mod p.addr (2 ^ (p.maxbits - p.plen))
    omega
  have hqe : q.addr = 2 ^ (p.maxbits - p.plen) * (q.addr / 2 ^ (p.maxbits - p.plen)) := by
    have := Nat.div_add_mod q.addr (2 ^ (p.maxbits - p.plen))
    omega
  have haddr : p.addr = q.addr := by rw [hpe, hqe, hb]
  cases p with
  | mk pv pa pl =>
    cases q with
    | mk qv qa ql =>
      simp only [Net.mk.injEq]
      exact ⟨hv, haddr, hl⟩

theorem StrictCovers.plen_lt {p q : Net} (hp : p.Valid) (hq : q.Valid)
    (h : StrictCovers p q) : p.plen < q.plen := by
  rcases Nat.lt_or_ge p.plen q.plen with h1 | h1
  · exact h1
  · exact absurd (h.1.eq_of_plen_eq hp hq (Nat.le_antisymm h.1.2.1 h1)) h.2

/-! ### Behaviour of the family-level insertion `famAdd` -/

theorem ptCovered_iff {pt : List Net} {net : Net} :
    ptCovered pt net = true ↔ ∃ p ∈ pt, Covers p net := by
  simp [ptCovered, List.any_eq_true]

theorem ptCovered_of_mem {pt : List Net} {net : Net} (h : net ∈ pt) :
    ptCovered pt net = true :=
  ptCovered_iff.mpr ⟨net, h, Covers.refl net⟩

theorem famAdd_covered {pt : List Net} {net : Net} (h : ptCovered pt net = true) :
    famAdd pt net = (false, pt) := by
  simp [famAdd, h]

/-- Deleting the keys of `cs` one at a time filters out the members of `cs`. -/
theorem foldl_delete_eq_filter (cs : List Net) :
    ∀ l : List Net, cs.foldl (fun acc c => acc.filter fun q => decide (q ≠ c)) l
      = l.filter fun q => decide (q ∉ cs) := by
  induction cs with
  | nil =>
    intro l
    simp only [List.foldl_nil]
    exact (List.filter_eq_self.mpr fun a _ => by simp).symm
  | cons c cs ih =>
    intro l
    simp only [List.foldl_cons]
    rw [ih, List.filter_filter]
    apply List.filter_congr
    intro a _
    by_cases h1 : a = c <;> by_cases h2 : a ∈ cs <;> simp [h1, h2]

theorem mem_ptChildren {pt : List Net} {net q : Net} :
    q ∈ ptChildren pt net ↔ q ∈ pt ∧ StrictCovers net q := by
  simp [ptChildren]

theorem famAdd_not_covered {pt : List Net} {net : Net} (h : ptCovered pt net = false) :
    famAdd pt net =
      (true, (net :: pt).filter fun q => decide (q ∉ ptChildren (net :: pt) net)) := by
  have hnm : net ∉ pt := fun hm => by simp [ptCovered_of_mem hm] at h
  unfold famAdd
  rw [h]
  simp only [Bool.false_eq_true, if_false]
  rw [show ptInsert pt net = net :: pt from by unfold ptInsert; rw [if_neg hnm]]
  rw [foldl_delete_eq_filter]

theorem famAdd_snd_not_covered {pt : List Net} {net : Net} (h : ptCovered pt net = false) :
    (famAdd pt net).2 = (net :: pt).filter fun q => decide (q ∉ ptChildren (net :: pt) net) := by
  rw [famAdd_not_covered h]

theorem famAdd_fst_not_covered {pt : List Net} {net : Net} (h : ptCovered pt net = false) :
    (famAdd pt net).1 = true := by
  rw [famAdd_not_covered h]

theorem mem_famAdd_snd {pt : List Net} {net : Net} (h : ptCovered pt net = false) (q : Net) :
    q ∈ (famAdd pt net).2 ↔ q = net ∨ (q ∈ pt ∧ ¬ StrictCovers net q) := by
  rw [famAdd_snd_not_covered h]
  rw [List.mem_filter]
  simp only [decide_eq_true_eq, mem_ptChildren, List.mem_cons]
  constructor
  · rintro ⟨h1, h2⟩
    rcases h1 with h1 | h1
    · exact Or.inl h1
    · exact Or.inr ⟨h1, fun hsc => h2 ⟨Or.inr h1, hsc⟩⟩
  · intro hq
    rcases hq with hq | ⟨hq1, hq2⟩
    · refine ⟨Or.inl hq, ?_⟩
      rintro ⟨-, hsc⟩
      exact hsc.2 hq.symm
    · exact ⟨Or.inr hq1, fun hc => hq2 hc.2⟩

theorem famAdd_snd_nodup {pt : List Net} {net : Net} (hnd : pt.Nodup) :
    (famAdd pt net).2.Nodup := by
  by_cases h : ptCovered pt net = true
  · rw [famAdd_covered h]; exact hnd
  · replace h : ptCovered pt net = false := by simpa using h
    rw [famAdd_snd_not_covered h]
    have hnm : net ∉ pt := fun hm => by simp [ptCovered_of_mem hm] at h
    exact (List.nodup_cons.mpr ⟨hnm, hnd⟩).filter _

theorem famAdd_snd_mem_or {pt : List Net} {net : Net} {q : Net}
    (h : q ∈ (famAdd pt net).2) : q = net ∨ q ∈ pt := by
  by_cases hc : ptCovered pt net = true
  · rw [famAdd_covered hc] at h; exact Or.inr h
  · replace hc : ptCovered pt net = false := by simpa using hc
    rcases (mem_famAdd_snd hc q).mp h with h1 | h1
    · exact Or.inl h1
    · exact Or.inr h1.1

theorem famAdd_preserves_noNesting {pt : List Net} {net : Net}
    (hinv : NoNesting pt) : NoNesting (famAdd pt net).2 := by
  by_cases h : ptCovered pt net = true
  · rw [famAdd_covered h]; exact hinv
  · replace h : ptCovered pt net = false := by simpa using h
    intro p hp q hq
    rcases (mem_famAdd_snd h p).mp hp with hp1 | hp1 <;>
      rcases (mem_famAdd_snd h q).mp hq with hq1 | hq1
    · subst hp1; subst hq1
      exact fun hsc => hsc.2 rfl
    · subst hp1
      exact hq1.2
    · subst hq1
      intro hsc
      exact absurd (ptCovered_iff.mpr ⟨p, hp1.1, hsc.1⟩) (by simp [h])
    · exact hinv p hp1.1 q hq1.1

/-- A list with fewer members keeps `NoNesting`. -/
theorem noNesting_of_subset {l1 l2 : List Net} (hsub : ∀ a ∈ l2, a ∈ l1)
    (h : NoNesting l1) : NoNesting l2 :=
  fun p hp q hq => h p (hsub p hp) q (hsub q hq)

/-! ### Dispatch of `RadixDedupe` operations onto the family tries -/

theorem setRadix_getRadix (s : RadixDedupe) (net : Net) :
    s.setRadix net (s.getRadix net) = s := by
  unfold RadixDedupe.setRadix RadixDedupe.getRadix
  by_cases h : net.version = 4 <;> simp [h]

theorem getRadix_setRadix (s : RadixDedupe) (net : Net) (pt : List Net) :
    (s.setRadix net pt).getRadix net = pt := by
  unfold RadixDedupe.setRadix RadixDedupe.getRadix
  by_cases h : net.version = 4 <;> simp [h]

theorem add_eq_v4 {s : RadixDedupe} {net : Net} (h : net.version = 4) :
    ((s.add net).1 = (famAdd s.pt_v4 net).1) ∧
      ((s.add net).2).pt_v4 = (famAdd s.pt_v4 net).2 ∧ ((s.add net).2).pt_v6 = s.pt_v6 := by
  simp [RadixDedupe.add, RadixDedupe.getRadix, RadixDedupe.setRadix, h]

theorem add_eq_v6 {s : RadixDedupe} {net : Net} (h : ¬ net.version = 4) :
    ((s.add net).1 = (famAdd s.pt_v6 net).1) ∧
      ((s.add net).2).pt_v6 = (famAdd s.pt_v6 net).2 ∧ ((s.add net).2).pt_v4 = s.pt_v4 := by
  simp [RadixDedupe.add, RadixDedupe.getRadix, RadixDedupe.setRadix, h]

/-- Re-adding any network immediately is a no-op returning `False`. -/
theorem add_unfold (s : RadixDedupe) (net : Net) :
    s.add net =
      ((famAdd (s.getRadix net) net).1, s.setRadix net (famAdd (s.getRadix net) net).2) := rfl

theorem getRadix_add (s : RadixDedupe) (net : Net) :
    ((s.add net).2).getRadix net = (famAdd (s.getRadix net) net).2 :=
  getRadix_setRadix s net _

/-- Re-adding any network immediately is a no-op returning `False`. -/
theorem radix_add_idem (s : RadixDedupe) (net : Net) :
    ((s.add net).2).add net = (false, (s.add net).2) := by
  have hcov : ptCovered (((s.add net).2).getRadix net) net = true := by
    rw [getRadix_add]
    by_cases h : ptCovered (s.getRadix net) net = true
    · rw [famAdd_covered h]; exact h
    · replace h : ptCovered (s.getRadix net) net = false := by simpa using h
      exact ptCovered_of_mem ((mem_famAdd_snd h net).mpr (Or.inl rfl))
  rw [add_unfold ((s.add net).2) net, famAdd_covered hcov, setRadix_getRadix]

/-! ### The aggregated store is the set of maximal inputs (confluence) -/

/-- Every member of a finite list of canonical networks lies below some member
that is maximal in the list. -/
theorem exists_maximal_cover {xs : List Net} (hval : ∀ p ∈ xs, p.Valid) :
    ∀ n, ∀ p ∈ xs, p.plen ≤ n → ∃ m ∈ xs, MaximalIn xs m ∧ Covers m p := by
  intro n
  induction n with
  | zero =>
    intro p hp hle
    by_cases hm : MaximalIn xs p
    · exact ⟨p, hp, hm, Covers.refl p⟩
    · exfalso
      unfold MaximalIn at hm
      push_neg at hm
      obtain ⟨q, hq, hsc⟩ := hm
      have := hsc.plen_lt (hval q hq) (hval p hp)
      omega
  | succ n ih =>
    intro p hp hle
    by_cases hm : MaximalIn xs p
    · exact ⟨p, hp, hm, Covers.refl p⟩
    · unfold MaximalIn at hm
      push_neg at hm
      obtain ⟨q, hq, hsc⟩ := hm
      have hlt := hsc.plen_lt (hval q hq) (hval p hp)
      obtain ⟨m, hm1, hm2, hm3⟩ := ih q hq (by omega)
      exact ⟨m, hm1, hm2, hm3.trans (hval q hq).2.1 hsc.1⟩

/-- Inserting a network of the store's family preserves the maximal-store
characterization, the input record growing by that network. -/
theorem isMaxStore_step_same {v : Nat} {xs S : List Net} {net : Net}
    (hvalxs : ∀ p ∈ xs, p.Valid) (hnet : net.Valid) (hv : net.version = v)
    (hms : IsMaxStore v xs S) : IsMaxStore v (xs ++ [net]) (famAdd S net).2 := by
  obtain ⟨hnd, hmem⟩ := hms
  by_cases hcov : ptCovered S net = true
  · rw [famAdd_covered hcov]
    refine ⟨hnd, fun p => ?_⟩
    obtain ⟨c, hcS, hc⟩ := ptCovered_iff.mp hcov
    have hcxs := (hmem c).mp hcS
    constructor
    · intro hpS
      obtain ⟨hpxs, hpv, hpmax⟩ := (hmem p).mp hpS
      refine ⟨List.mem_append_left _ hpxs, hpv, fun q hq hsc => ?_⟩
      rcases List.mem_append.mp hq with hq1 | hq2
      · exact hpmax q hq1 hsc
      · have hqnet : q = net := by simpa using hq2
        subst hqnet
        have hcp : Covers c p := hc.trans hnet.2.1 hsc.1
        by_cases hce : c = p
        · subst hce
          exact hsc.2 ((hc.eq_of_plen_eq (hvalxs c hcxs.1) hnet
            (Nat.le_antisymm hc.2.1 hsc.1.2.1)).symm)
        · exact hpmax c hcxs.1 ⟨hcp, hce⟩
    · rintro ⟨hpxs2, hpv, hpmax2⟩
      rcases List.mem_append.mp hpxs2 with hp1 | hp2
      · exact (hmem p).mpr
          ⟨hp1, hpv, fun q hq hsc => hpmax2 q (List.mem_append_left _ hq) hsc⟩
      · have hpnet : p = net := by simpa using hp2
        subst hpnet
        by_cases hce : c = p
        · rwa [hce] at hcS
        · exact absurd ⟨hc, hce⟩ (hpmax2 c (List.mem_append_left _ hcxs.1))
  · replace hcov : ptCovered S net = false := by simpa using hcov
    refine ⟨famAdd_snd_nodup hnd, fun p => ?_⟩
    rw [mem_famAdd_snd hcov]
    constructor
    · intro hp
      rcases hp with hp | ⟨hpS, hnsc⟩
      · subst hp
        refine ⟨List.mem_append_right _ (by simp), hv, fun q hq hsc => ?_⟩
        rcases List.mem_append.mp hq with hq1 | hq2
        · obtain ⟨m, hm1, hm2, hm3⟩ :=
            exists_maximal_cover hvalxs q.plen q hq1 (Nat.le_refl _)
          have hmv : m.version = v := by
            rw [hm3.1, hsc.1.1, hv]
          have hmS : m ∈ S := (hmem m).mpr ⟨hm1, hmv, hm2⟩
          have hcovm : Covers m p := hm3.trans (hvalxs q hq1).2.1 hsc.1
          exact absurd (ptCovered_iff.mpr ⟨m, hmS, hcovm⟩) (by simp [hcov])
        · have : q = p := by simpa using hq2
          exact hsc.2 this
      · obtain ⟨hpxs, hpv, hpmax⟩ := (hmem p).mp hpS
        refine ⟨List.mem_append_left _ hpxs, hpv, fun q hq hsc => ?_⟩
        rcases List.mem_append.mp hq with hq1 | hq2
        · exact hpmax q hq1 hsc
        · have hqe : q = net := by simpa using hq2
          exact hnsc (hqe ▸ hsc)
    · rintro ⟨hpmem, hpv, hpmax⟩
      rcases List.mem_append.mp hpmem with hp1 | hp2
      · refine Or.inr ⟨(hmem p).mpr
          ⟨hp1, hpv, fun q hq => hpmax q (List.mem_append_left _ hq)⟩, ?_⟩
        exact hpmax net (List.mem_append_right _ (by simp))
      · exact Or.inl (by simpa using hp2)

/-- Recording a network of the other family leaves a maximal store
characterized, since cross-family coverage is impossible. -/
theorem isMaxStore_step_other {v : Nat} {xs S : List Net} {net : Net}
    (hv : net.version ≠ v) (hms : IsMaxStore v xs S) : IsMaxStore v (xs ++ [net]) S := by
  obtain ⟨hnd, hmem⟩ := hms
  refine ⟨hnd, fun p => ?_⟩
  rw [hmem p]
  constructor
  · rintro ⟨hpxs, hpv, hpmax⟩
    refine ⟨List.mem_append_left _ hpxs, hpv, fun q hq hsc => ?_⟩
    rcases List.mem_append.mp hq with hq1 | hq2
    · exact hpmax q hq1 hsc
    · have hqe : q = net := by simpa using hq2
      subst hqe
      exact hv (hsc.1.1.trans hpv)
  · rintro ⟨hpxs, hpv, hpmax⟩
    rcases List.mem_append.mp hpxs with hp1 | hp2
    · exact ⟨hp1, hpv, fun q hq => hpmax q (List.mem_append_left _ hq)⟩
    · have : p = net := by simpa using hp2
      subst this
      exact absurd hpv hv

/-- Folding `add` over an input list keeps both family stores characterized as
the maximal version-matching inputs seen so far. -/
theorem addMany_isMaxStore :
    ∀ (l xs : List Net) (s : RadixDedupe), (∀ p ∈ xs, p.Valid) → (∀ p ∈ l, p.Valid) →
      IsMaxStore 4 xs s.pt_v4 → IsMaxStore 6 xs s.pt_v6 →
      IsMaxStore 4 (xs ++ l) (s.addMany l).pt_v4 ∧
        IsMaxStore 6 (xs ++ l) (s.addMany l).pt_v6 := by
  intro l
  induction l with
  | nil =>
    intro xs s hxs hl h4 h6
    simpa [RadixDedupe.addMany] using ⟨h4, h6⟩
  | cons net rest ih =>
    intro xs s hxs hl h4 h6
    have hnet : net.Valid := hl net (by simp)
    have hrest : ∀ p ∈ rest, p.Valid := fun p hp => hl p (by simp [hp])
    have hxs2 : ∀ p ∈ xs ++ [net], p.Valid := by
      intro p hp
      rcases List.mem_append.mp hp with h | h
      · exact hxs p h
      · have : p = net := by simpa using h
        subst this; exact hnet
    have hmany : s.addMany (net :: rest) = ((s.add net).2).addMany rest := by
      simp [RadixDedupe.addMany]
    have hstep : IsMaxStore 4 (xs ++ [net]) ((s.add net).2).pt_v4 ∧
        IsMaxStore 6 (xs ++ [net]) ((s.add net).2).pt_v6 := by
      rcases hnet.1 with hver | hver
      · obtain ⟨-, he4, he6⟩ := add_eq_v4 (s := s) hver
        rw [he4, he6]
        have hgr : s.getRadix net = s.pt_v4 := by simp [RadixDedupe.getRadix, hver]
        constructor
        · exact isMaxStore_step_same hxs hnet hver h4
        · exact isMaxStore_step_other (by omega) h6
      · have hne4 : ¬ net.version = 4 := by omega
        obtain ⟨-, he6, he4⟩ := add_eq_v6 (s := s) hne4
        rw [he4, he6]
        constructor
        · exact isMaxStore_step_other (by omega) h4
        · exact isMaxStore_step_same hxs hnet hver h6
    have hres := ih (xs ++ [net]) ((s.add net).2) hxs2 hrest hstep.1 hstep.2
    rw [hmany]
    simpa [List.append_assoc] using hres

/-- Two runs over permutation-equal valid inputs end with permutation-equal
family stores. -/
theorem addMany_perm_stores {l1 l2 : List Net} (hp : l1.Perm l2)
    (hval : ∀ p ∈ l1, p.Valid) :
    (RadixDedupe.empty.addMany l1).pt_v4.Perm (RadixDedupe.empty.addMany l2).pt_v4 ∧
      (RadixDedupe.empty.addMany l1).pt_v6.Perm (RadixDedupe.empty.addMany l2).pt_v6 := by
  have hval2 : ∀ p ∈ l2, p.Valid := fun p hp2 => hval p (hp.mem_iff.mpr hp2)
  have hbase4 : IsMaxStore 4 [] RadixDedupe.empty.pt_v4 := by
    constructor
    · exact List.nodup_nil
    · intro p; simp [RadixDedupe.empty]
  have hbase6 : IsMaxStore 6 [] RadixDedupe.empty.pt_v6 := by
    constructor
    · exact List.nodup_nil
    · intro p; simp [RadixDedupe.empty]
  have h1 := addMany_isMaxStore l1 [] RadixDedupe.empty (by simp) hval hbase4 hbase6
  have h2 := addMany_isMaxStore l2 [] RadixDedupe.empty (by simp) hval2 hbase4 hbase6
  have key : ∀ v S1 S2, IsMaxStore v l1 S1 → IsMaxStore v l2 S2 → S1.Perm S2 := by
    intro v S1 S2 hS1 hS2
    refine (List.perm_ext_iff_of_nodup hS1.1 hS2.1).mpr fun a => ?_
    rw [hS1.2 a, hS2.2 a]
    have hm : ∀ q, q ∈ l1 ↔ q ∈ l2 := fun q => hp.mem_iff
    constructor
    · rintro ⟨ha1, ha2, ha3⟩
      exact ⟨(hm a).mp ha1, ha2, fun q hq => ha3 q ((hm q).mpr hq)⟩
    · rintro ⟨ha1, ha2, ha3⟩
      exact ⟨(hm a).mpr ha1, ha2, fun q hq => ha3 q ((hm q).mp hq)⟩
  constructor
  · exact key 4 _ _ (by simpa using h1.1) (by simpa using h2.1)
  · exact key 6 _ _ (by simpa using h1.2) (by simpa using h2.2)

/-! ### Preservation of well-formedness and the nesting invariant -/

theorem radix_add_preserves (s : RadixDedupe) (net : Net) (hok : s.OK) (hinv : s.Inv)
    (hval : net.Valid) : ((s.add net).2).OK ∧ ((s.add net).2).Inv := by
  rcases hval.1 with hver | hver
  · obtain ⟨-, he4, he6⟩ := add_eq_v4 (s := s) hver
    refine ⟨⟨?_, by rw [he6]; exact hok.2⟩, ⟨?_, by rw [he6]; exact hinv.2⟩⟩
    · rw [he4]
      refine ⟨famAdd_snd_nodup hok.1.1, fun p hp => ?_⟩
      rcases famAdd_snd_mem_or hp with h | h
      · subst h; exact ⟨hval, hver⟩
      · exact hok.1.2 p h
    · rw [he4]
      exact famAdd_preserves_noNesting hinv.1
  · have hne4 : ¬ net.version = 4 := by omega
    obtain ⟨-, he6, he4⟩ := add_eq_v6 (s := s) hne4
    refine ⟨⟨by rw [he4]; exact hok.1, ?_⟩, ⟨by rw [he4]; exact hinv.1, ?_⟩⟩
    · rw [he6]
      refine ⟨famAdd_snd_nodup hok.2.1, fun p hp => ?_⟩
      rcases famAdd_snd_mem_or hp with h | h
      · subst h; exact ⟨hval, hver⟩
      · exact hok.2.2 p h
    · rw [he6]
      exact famAdd_preserves_noNesting hinv.2

theorem radix_remove_preserves (s : RadixDedupe) (net : Net) (hok : s.OK) (hinv : s.Inv) :
    ∀ s2, s.remove net = some s2 → s2.OK ∧ s2.Inv := by
  intro s2 h2
  unfold RadixDedupe.remove ptDelete at h2
  by_cases hm : net ∈ s.getRadix net
  · rw [if_pos hm] at h2
    simp only [Option.some.injEq] at h2
    subst h2
    by_cases hv : net.version = 4
    · have hset : s.setRadix net ((s.getRadix net).filter fun q => decide (q ≠ net))
          = { s with pt_v4 := s.pt_v4.filter fun q => decide (q ≠ net) } := by
        simp [RadixDedupe.setRadix, RadixDedupe.getRadix, hv]
      rw [hset]
      exact ⟨⟨⟨hok.1.1.filter _, fun p hp => hok.1.2 p (List.mem_of_mem_filter hp)⟩, hok.2⟩,
        noNesting_of_subset (fun a ha => List.mem_of_mem_filter ha) hinv.1, hinv.2⟩
    · have hset : s.setRadix net ((s.getRadix net).filter fun q => decide (q ≠ net))
          = { s with pt_v6 := s.pt_v6.filter fun q => decide (q ≠ net) } := by
        simp [RadixDedupe.setRadix, RadixDedupe.getRadix, hv]
      rw [hset]
      exact ⟨⟨hok.1, ⟨hok.2.1.filter _, fun p hp => hok.2.2 p (List.mem_of_mem_filter hp)⟩⟩,
        hinv.1, noNesting_of_subset (fun a ha => List.mem_of_mem_filter ha) hinv.2⟩
  · rw [if_neg hm] at h2
    exact absurd h2 (by simp)

/-! ### Flat lowercased set -/

/-- After any `add`, the lowercased key is stored. -/
theorem simpleSet_mem_after_add (s : SimpleSetDedupe) (x : String) :
    pyLower x ∈ ((s.add x).2).seen := by
  unfold SimpleSetDedupe.add
  by_cases h : pyLower x ∈ s.seen <;> simp [h]

/-- A second identical `add` returns `False` and changes nothing. -/
theorem simpleSet_add_idem (s : SimpleSetDedupe) (e : String) :
    ((s.add e).2).add e = (false, (s.add e).2) := by
  have h := simpleSet_mem_after_add s e
  conv_lhs => rw [SimpleSetDedupe.add]
  simp [h]

/-- `discard` of an absent key leaves the set untouched. -/
theorem simpleSet_remove_absent (s : SimpleSetDedupe) (e : String)
    (h : s.contains e = false) : s.remove e = s := by
  have hm : pyLower e ∉ s.seen := by
    simpa [SimpleSetDedupe.contains] using h
  unfold SimpleSetDedupe.remove
  have : (s.seen.filter fun q => decide (q ≠ pyLower e)) = s.seen :=
    List.filter_eq_self.mpr fun a ha => by
      simp only [decide_eq_true_eq]
      exact fun he => hm (he ▸ ha)
  rw [this]

/-- `contains` sees any case variant of an added item. -/
theorem simpleSet_contains_variant (s : SimpleSetDedupe) (x t : String)
    (h : pyLower t = pyLower x) : ((s.add x).2).contains t = true := by
  unfold SimpleSetDedupe.contains
  rw [h]
  simpa using simpleSet_mem_after_add s x

/-- `contains` and `remove` act only through the lowercased input. -/
theorem simpleSet_lower_blind (s : SimpleSetDedupe) (x t : String)
    (h : pyLower t = pyLower x) :
    s.contains t = s.contains x ∧ s.remove t = s.remove x := by
  unfold SimpleSetDedupe.contains SimpleSetDedupe.remove
  rw [h]
  exact ⟨rfl, rfl⟩

/-- Adding to the empty set stores exactly the lowercase form. -/
theorem simpleSet_all_empty_add (x : String) :
    ((SimpleSetDedupe.empty.add x).2).all = [pyLower x] := by
  unfold SimpleSetDedupe.empty SimpleSetDedupe.add
  simp [SimpleSetDedupe.all, pySorted]

/-! ### Domain trie: association-list child maps -/

theorem lookupChild_setChild_self (cs : List (String × DNode)) (l : String) (c : DNode) :
    lookupChild (setChild cs l c) l = some c := by
  induction cs with
  | nil => simp [setChild, lookupChild]
  | cons kc rest ih =>
    obtain ⟨k, c0⟩ := kc
    by_cases h : k = l
    · simp [setChild, lookupChild, h]
    · simp [setChild, lookupChild, h, ih]

theorem setChild_setChild (cs : List (String × DNode)) (l : String) (c1 c2 : DNode) :
    setChild (setChild cs l c1) l c2 = setChild cs l c2 := by
  induction cs with
  | nil => simp [setChild]
  | cons kc rest ih =>
    obtain ⟨k, c0⟩ := kc
    by_cases h : k = l
    · simp [setChild, h]
    · simp [setChild, h, ih]

/-! ### Domain trie: insertion -/

/-- A successful insertion with a nonempty path leaves the start node's
markers unchanged and rewrites exactly the walked child. -/
theorem addGo_cons_preserve : ∀ (l : String) (ls : List String) (n n2 : DNode) (w : Bool),
    addGo n (l :: ls) w = some n2 →
      n2.term = n.term ∧ n2.wild = n.wild ∧
        ∃ c2, addGo ((lookupChild n.children l).getD DNode.empty) ls w = some c2 ∧
          n2.children = setChild n.children l c2 := by
  intro l ls n n2 w h
  simp only [addGo] at h
  by_cases hw : n.wild = true
  · rw [hw] at h; simp at h
  · rw [Bool.not_eq_true] at hw
    rw [hw] at h
    simp only [Bool.false_eq_true, if_false] at h
    rcases hrec : addGo ((lookupChild n.children l).getD DNode.empty) ls w with _ | c2
    · rw [hrec] at h; simp at h
    · rw [hrec] at h
      simp only [Option.some.injEq] at h
      subst h
      exact ⟨rfl, hw.symm, c2, rfl, rfl⟩

/-- A successful insertion with a nonempty path requires no wildcard at the
start node. -/
theorem addGo_cons_start_not_wild {l : String} {ls : List String} {n n2 : DNode} {w : Bool}
    (h : addGo n (l :: ls) w = some n2) : n.wild = false := by
  simp only [addGo] at h
  by_cases hw : n.wild = true
  · rw [hw] at h; simp at h
  · rwa [Bool.not_eq_true] at hw

/-- A second insertion of the same entry right after a successful one returns
`True` again with the tree unchanged. -/
theorem addGo_idem : ∀ (rs : List String) (n n2 : DNode) (w : Bool),
    addGo n rs w = some n2 → addGo n2 rs w = some n2 := by
  intro rs
  induction rs with
  | nil =>
    intro n n2 w h
    cases w with
    | true =>
      have he : addGo n [] true = some (DNode.node false true []) := rfl
      rw [he, Option.some.injEq] at h
      rw [← h]
      rfl
    | false =>
      have he : addGo n [] false = some (DNode.node true n.wild n.children) := rfl
      rw [he, Option.some.injEq] at h
      subst h
      rfl
  | cons l ls ih =>
    intro n n2 w h
    have hw := addGo_cons_start_not_wild h
    obtain ⟨ht, hwld, c2, hrec, hch⟩ := addGo_cons_preserve l ls n n2 w h
    have hb : n2.wild = false := hwld.trans hw
    cases n2 with
    | node a b c =>
      simp only [DNode.wild] at hb
      simp only [DNode.children] at hch
      subst hb
      subst hch
      simp only [addGo, DNode.wild, Bool.false_eq_true, if_false, DNode.children,
        lookupChild_setChild_self, Option.getD_some, ih _ _ _ hrec, DNode.term,
        setChild_setChild]

/-- After a successful wildcard insertion the target node is `{__wildcard__}`:
no terminal marker, no children. -/
theorem addGo_wild_nodeAt : ∀ (rs : List String) (n n2 : DNode),
    addGo n rs true = some n2 → nodeAt n2 rs = some (DNode.node false true []) := by
  intro rs
  induction rs with
  | nil =>
    intro n n2 h
    simp only [addGo, if_true, Option.some.injEq] at h
    rw [← h]
    rfl
  | cons l ls ih =>
    intro n n2 h
    obtain ⟨-, -, c2, hrec, hch⟩ := addGo_cons_preserve l ls n n2 true h
    simp only [nodeAt, hch, lookupChild_setChild_self]
    exact ih _ _ hrec

/-! ### Domain trie: lookup -/

theorem nodeAt_cons_some {n c : DNode} {l : String}
    (h : lookupChild n.children l = some c) (ls : List String) :
    nodeAt n (l :: ls) = nodeAt c ls := by
  simp only [nodeAt, h]

theorem containsGo_cons_some {n c : DNode} {l : String}
    (h : lookupChild n.children l = some c) (ls : List String) :
    containsGo n (l :: ls) = ((c.wild && ls.length == 1) || containsGo c ls) := by
  simp only [containsGo, h]

theorem containsGo_cons_none {n : DNode} {l : String}
    (h : lookupChild n.children l = none) (ls : List String) :
    containsGo n (l :: ls) = false := by
  simp only [containsGo, h]

/-- A wildcard marker stored at the end of a nonempty path covers exactly one
further label: the lookup walk answers `true` for any such extension,
whatever else the trie holds. -/
theorem containsGo_wild_append : ∀ (rs : List String) (n m : DNode),
    nodeAt n rs = some m → m.wild = true → rs ≠ [] →
      ∀ x, containsGo n (rs ++ [x]) = true := by
  intro rs
  induction rs with
  | nil => intro n m _ _ hne; exact absurd rfl hne
  | cons l ls ih =>
    intro n m hat hw _ x
    rcases hlk : lookupChild n.children l with _ | c
    · rw [nodeAt, hlk] at hat
      exact absurd hat (by simp)
    · rw [nodeAt_cons_some hlk] at hat
      cases ls with
      | nil =>
        simp only [nodeAt, Option.some.injEq] at hat
        subst hat
        rw [List.cons_append, List.nil_append, containsGo_cons_some hlk, hw]
        simp
      | cons l2 ls2 =>
        have hrec := ih c m hat hw (by simp) x
        rw [List.cons_append, containsGo_cons_some hlk, hrec]
        simp

/-- After a successful wildcard insertion, queries two or more labels below
the wildcard target find nothing: the target was cleared and the walk dies
there. -/
theorem addGo_wild_deep_false : ∀ (rs : List String) (n n2 : DNode) (y z : String),
    addGo n rs true = some n2 → containsGo n2 (rs ++ [z, y]) = false := by
  intro rs
  induction rs with
  | nil =>
    intro n n2 y z h
    have he : addGo n [] true = some (DNode.node false true []) := rfl
    rw [he, Option.some.injEq] at h
    subst h
    rfl
  | cons l ls ih =>
    intro n n2 y z h
    obtain ⟨-, -, c2, hrec, hch⟩ := addGo_cons_preserve l ls n n2 true h
    have hlk2 : lookupChild n2.children l = some c2 := by
      rw [hch]; exact lookupChild_setChild_self _ _ _
    rw [List.cons_append, containsGo_cons_some hlk2, ih _ _ y z hrec]
    have hlen : ((ls ++ [z, y]).length == 1) = false := by
      simp [List.length_append]
    rw [hlen]
    simp

/-- After a successful wildcard insertion, the exact target domain itself is
no longer found: `node.clear()` also dropped the terminal marker. -/
theorem addGo_wild_self_false : ∀ (rs : List String) (n n2 : DNode),
    addGo n rs true = some n2 → rs ≠ [] → containsGo n2 rs = false := by
  intro rs
  induction rs with
  | nil => intro n n2 _ hne; exact absurd rfl hne
  | cons l ls ih =>
    intro n n2 h _
    obtain ⟨-, -, c2, hrec, hch⟩ := addGo_cons_preserve l ls n n2 true h
    have hlk2 : lookupChild n2.children l = some c2 := by
      rw [hch]; exact lookupChild_setChild_self _ _ _
    rw [containsGo_cons_some hlk2]
    cases ls with
    | nil =>
      have he : addGo ((lookupChild n.children l).getD DNode.empty) [] true
          = some (DNode.node false true []) := rfl
      rw [he, Option.some.injEq] at hrec
      subst hrec
      rfl
    | cons l2 ls2 =>
      have hw2 := addGo_cons_start_not_wild hrec
      obtain ⟨-, hwld2, -, -, -⟩ := addGo_cons_preserve l2 ls2 _ c2 true hrec
      rw [ih _ _ hrec (by simp), hwld2, hw2]
      rfl

/-! ### Domain trie: removal of absent entries -/

theorem removeGo_cons_none {n : DNode} {l : String}
    (h : lookupChild n.children l = none) (ls : List String) (w : Bool) :
    removeGo n (l :: ls) w = none := by
  simp only [removeGo, h]

theorem removeGo_cons_some {n c : DNode} {l : String}
    (h : lookupChild n.children l = some c) (ls : List String) (w : Bool) :
    removeGo n (l :: ls) w =
      match removeGo c ls w with
      | none => none
      | some c2 =>
        if c2.isEmptyNode then some (DNode.node n.term n.wild (removeChildKey n.children l))
        else some (DNode.node n.term n.wild (setChild n.children l c2)) := by
  simp only [removeGo, h]

/-- When the sought marker is absent, the removal walk reports failure before
touching anything. -/
theorem removeGo_not_found : ∀ (rs : List String) (n : DNode) (w : Bool),
    hasMarker n rs w = false → removeGo n rs w = none := by
  intro rs
  induction rs with
  | nil =>
    intro n w h
    simp only [hasMarker, nodeAt] at h
    cases w with
    | true =>
      rw [if_pos rfl] at h
      simp [removeGo, h]
    | false =>
      rw [if_neg (by simp)] at h
      simp [removeGo, h]
  | cons l ls ih =>
    intro n w h
    rcases hlk : lookupChild n.children l with _ | c
    · exact removeGo_cons_none hlk ls w
    · have h2 : hasMarker c ls w = false := by
        rw [hasMarker] at h ⊢
        rw [nodeAt_cons_some hlk] at h
        exact h
      rw [removeGo_cons_some hlk, ih c w h2]

/-- `DomainTrie.removeL` of an entry whose marker is absent is a silent no-op
returning `False`. -/
theorem removeL_not_found (t : DomainTrie) (w : Bool) (ls : List String)
    (h : hasMarker t.root ls.reverse w = false) : t.removeL w ls = (false, t) := by
  unfold DomainTrie.removeL
  rw [removeGo_not_found ls.reverse t.root w h]

/-! ### Domain trie: the label-level `add` wrapper -/

theorem addL_eq_none {t : DomainTrie} {w : Bool} {ls : List String}
    (h : addGo t.root ls.reverse w = none) : t.addL w ls = (false, t) := by
  unfold DomainTrie.addL
  rw [h]

theorem addL_eq_some {t : DomainTrie} {w : Bool} {ls : List String} {r : DNode}
    (h : addGo t.root ls.reverse w = some r) : t.addL w ls = (true, ⟨r⟩) := by
  unfold DomainTrie.addL
  rw [h]

theorem addL_some_inv {t t2 : DomainTrie} {w : Bool} {ls : List String}
    (h : t.addL w ls = (true, t2)) : addGo t.root ls.reverse w = some t2.root := by
  rcases h2 : addGo t.root ls.reverse w with _ | r
  · rw [addL_eq_none h2] at h
    simp at h
  · rw [addL_eq_some h2] at h
    simp only [Prod.mk.injEq, true_and] at h
    rw [← h]

/-- Repeating any `add` right after it yields the same answer and the same
tree: the domain trie's `add` is state-idempotent but does not turn its
result to `False` on the repeat. -/
theorem domainTrie_addL_idem (t : DomainTrie) (w : Bool) (ls : List String) :
    ((t.addL w ls).2).addL w ls = t.addL w ls := by
  rcases h : addGo t.root ls.reverse w with _ | r
  · rw [addL_eq_none h]
    exact addL_eq_none h
  · rw [addL_eq_some h]
    exact addL_eq_some (addGo_idem ls.reverse t.root r w h)

/-! ### The claims -/

/-- C1 (amended): removing an absent entry is a silent no-op leaving the state
unchanged for the set strategy (`discard`) and the domain strategy (the trie
walk returns `False` before mutating); the radix strategy instead raises
`KeyError` (modelled `none`) whenever the exact key is absent, so for it the
claim's "does not raise" fails. -/
theorem claim_C1 :
    (∀ (s : SimpleSetDedupe) (e : String), s.contains e = false → s.remove e = s) ∧
    (∀ (t : DomainTrie) (w : Bool) (ls : List String),
      hasMarker t.root ls.reverse w = false → t.removeL w ls = (false, t)) ∧
    (∀ (s : RadixDedupe) (net : Net), net ∉ s.getRadix net → s.remove net = none) := by
  refine ⟨simpleSet_remove_absent, removeL_not_found, fun s net h => ?_⟩
  unfold RadixDedupe.remove ptDelete
  rw [if_neg h]

/-- C1 witness: each clause applied at a concrete absent entry. -/
theorem claim_C1_witness :
    (SimpleSetDedupe.empty.contains "a" = false ∧
      SimpleSetDedupe.empty.remove "a" = SimpleSetDedupe.empty) ∧
    (hasMarker DomainTrie.empty.root (["com"] : List String).reverse false = false ∧
      DomainTrie.empty.removeL false ["com"] = (false, DomainTrie.empty)) ∧
    ((⟨4, 167772160, 8⟩ : Net) ∉ RadixDedupe.empty.getRadix ⟨4, 167772160, 8⟩ ∧
      RadixDedupe.empty.remove ⟨4, 167772160, 8⟩ = none) :=
  ⟨⟨by decide, claim_C1.1 SimpleSetDedupe.empty "a" (by decide)⟩,
   ⟨by decide, claim_C1.2.1 DomainTrie.empty false ["com"] (by decide)⟩,
   ⟨by decide, claim_C1.2.2 RadixDedupe.empty ⟨4, 167772160, 8⟩ (by decide)⟩⟩

/-- C1 counterexample: on the radix strategy, removing the valid but absent
10.0.0.0/8 is not a silent no-op — pytricia's `delete` raises `KeyError`
(modelled as `none`), refuting "for every strategy ... it does not raise". -/
theorem claim_C1_cex : RadixDedupe.empty.remove ⟨4, 167772160, 8⟩ = none := by
  decide

/-- C2 (amended): an immediate repeat of `add(e)` never changes the stored
state; for the set and radix strategies the repeat returns `false`, but the
domain trie's `add` returns the same answer as the first call (`true` after a
successful insert), not `false` — the trie does not report "already
present". -/
theorem claim_C2 :
    (∀ (s : SimpleSetDedupe) (e : String), ((s.add e).2).add e = (false, (s.add e).2)) ∧
    (∀ (s : RadixDedupe) (net : Net), ((s.add net).2).add net = (false, (s.add net).2)) ∧
    (∀ (t : DomainTrie) (w : Bool) (ls : List String),
      ((t.addL w ls).2).addL w ls = t.addL w ls) :=
  ⟨simpleSet_add_idem, radix_add_idem, domainTrie_addL_idem⟩

/-- C2 counterexample: adding `example.com` twice to a fresh domain trie — the
second call returns `true`, not `false` as the claim (and the stated trie
contract) requires. -/
theorem claim_C2_cex :
    (((DomainTrie.empty.addL false ["example", "com"]).2).addL false
      ["example", "com"]).1 = true := by
  decide

/-- C3 (amended): `RadixDedupe.contains` is pytricia's longest-match query:
true iff some stored key covers the queried network — in particular it is
true for a network strictly covered by a broader stored key even though the
exact key is absent, contradicting the claimed exact-key semantics. -/
theorem claim_C3 :
    (∀ (s : RadixDedupe) (net : Net),
      s.contains net = true ↔ ∃ p ∈ s.getRadix net, Covers p net) ∧
    (∀ (s : RadixDedupe) (p net : Net),
      p ∈ s.getRadix net → Covers p net → s.contains net = true) := by
  constructor
  · intro s net
    exact ptCovered_iff
  · intro s p net hm hc
    exact ptCovered_iff.mpr ⟨p, hm, hc⟩

/-- C3 witness: coverage lookup applied with 10.0.0.0/8 stored and the
strictly covered 10.1.2.3/32 queried. -/
theorem claim_C3_witness :
    (⟨4, 167772160, 8⟩ : Net) ∈
        (RadixDedupe.mk [⟨4, 167772160, 8⟩] []).getRadix ⟨4, 167838211, 32⟩ ∧
      Covers ⟨4, 167772160, 8⟩ ⟨4, 167838211, 32⟩ ∧
      (RadixDedupe.mk [⟨4, 167772160, 8⟩] []).contains ⟨4, 167838211, 32⟩ = true :=
  ⟨by decide, by decide,
    claim_C3.2 (RadixDedupe.mk [⟨4, 167772160, 8⟩] []) ⟨4, 167772160, 8⟩
      ⟨4, 167838211, 32⟩ (by decide) (by decide)⟩

/-- C3 counterexample: after adding only 10.0.0.0/8, the never-stored
10.1.2.3/32 satisfies `contains = true` although its exact key is absent —
the claimed "exact key present iff contains" equivalence is false. -/
theorem claim_C3_cex :
    ((RadixDedupe.empty.add ⟨4, 167772160, 8⟩).2).contains ⟨4, 167838211, 32⟩ = true ∧
      (⟨4, 167838211, 32⟩ : Net) ∉
        ((RadixDedupe.empty.add ⟨4, 167772160, 8⟩).2).getRadix ⟨4, 167838211, 32⟩ := by
  constructor <;> decide

/-- C4 (amended): a successful wildcard insert clears the children and the
markers at and strictly below the target node (`node.clear()`), then sets the
wildcard marker: the target node ends as exactly `{__wildcard__}`, the exact
domain `d` is no longer contained afterwards, while every single-label
extension of `d` is covered. -/
theorem claim_C4 (t : DomainTrie) (ls : List String) (t2 : DomainTrie)
    (hne : ls ≠ []) (h : t.addL true ls = (true, t2)) :
    nodeAt t2.root ls.reverse = some (DNode.node false true []) ∧
      t2.containsL ls = false ∧ ∀ x, t2.containsL (x :: ls) = true := by
  have hgo := addL_some_inv h
  have hnode := addGo_wild_nodeAt ls.reverse t.root t2.root hgo
  have hrevne : ls.reverse ≠ [] := by
    intro h2
    exact hne (by simpa using congrArg List.reverse h2)
  refine ⟨hnode, ?_, fun x => ?_⟩
  · exact addGo_wild_self_false ls.reverse t.root t2.root hgo hrevne
  · unfold DomainTrie.containsL
    rw [List.reverse_cons]
    exact containsGo_wild_append ls.reverse t2.root (DNode.node false true [])
      hnode rfl hrevne x

/-- C4 witness: add `example.com`, then the wildcard `*.example.com`; the
apex is gone and one-label subdomains are covered. -/
theorem claim_C4_witness :
    ((DomainTrie.empty.addL false ["example", "com"]).2.addL true
        ["example", "com"]).2.containsL ["example", "com"] = false ∧
      ∀ x, ((DomainTrie.empty.addL false ["example", "com"]).2.addL true
        ["example", "com"]).2.containsL (x :: ["example", "com"]) = true := by
  have h := claim_C4 (DomainTrie.empty.addL false ["example", "com"]).2 ["example", "com"]
    ((DomainTrie.empty.addL false ["example", "com"]).2.addL true ["example", "com"]).2
    (by decide) rfl
  exact ⟨h.2.1, h.2.2⟩

/-- C4 counterexample: `example.com` is stored, then `*.example.com` is
inserted successfully — afterwards `contains("example.com")` is `false`,
refuting "markers at the target node itself are not cleared, so contains(d)
is still true". -/
theorem claim_C4_cex :
    ((DomainTrie.empty.addL false ["example", "com"]).2.addL true
        ["example", "com"]).1 = true ∧
      ((DomainTrie.empty.addL false ["example", "com"]).2).containsL
        ["example", "com"] = true ∧
      ((DomainTrie.empty.addL false ["example", "com"]).2.addL true
        ["example", "com"]).2.containsL ["example", "com"] = false := by
  refine ⟨by decide, by decide, by decide⟩

/-- C5: the CIDR aggregator's invariant — no stored key strictly inside
another — is preserved by every `add` and every successful `remove`; `add` of
a covered network is a no-op returning `false`, and `add` of an uncovered
network inserts it, evicts exactly the stored strict descendants, and returns
`true`. -/
theorem claim_C5 (s : RadixDedupe) (net : Net) (hok : s.OK) (hinv : s.Inv)
    (hval : net.Valid) :
    (ptCovered (s.getRadix net) net = true → s.add net = (false, s)) ∧
    (ptCovered (s.getRadix net) net = false → (s.add net).1 = true ∧
      ∀ q, q ∈ ((s.add net).2).getRadix net ↔
        q = net ∨ (q ∈ s.getRadix net ∧ ¬ StrictCovers net q)) ∧
    ((s.add net).2).Inv ∧ ((s.add net).2).OK ∧
    (∀ s2, s.remove net = some s2 → s2.Inv ∧ s2.OK) := by
  refine ⟨?_, ?_, (radix_add_preserves s net hok hinv hval).2,
    (radix_add_preserves s net hok hinv hval).1,
    fun s2 h2 => ⟨(radix_remove_preserves s net hok hinv s2 h2).2,
      (radix_remove_preserves s net hok hinv s2 h2).1⟩⟩
  · intro h
    have : s.setRadix net (s.getRadix net) = s := setRadix_getRadix s net
    rw [add_unfold, famAdd_covered h]
    simpa using this
  · intro h
    refine ⟨?_, fun q => ?_⟩
    · rw [add_unfold]
      exact famAdd_fst_not_covered h
    · rw [getRadix_add]
      exact mem_famAdd_snd h q

/-- C5 witness: the preserved invariant and well-formedness after inserting
10.0.0.0/8 into a fresh aggregator. -/
theorem claim_C5_witness :
    ((RadixDedupe.empty.add ⟨4, 167772160, 8⟩).2).Inv ∧
      ((RadixDedupe.empty.add ⟨4, 167772160, 8⟩).2).OK := by
  have h := claim_C5 RadixDedupe.empty ⟨4, 167772160, 8⟩
    (by refine ⟨⟨List.nodup_nil, ?_⟩, ⟨List.nodup_nil, ?_⟩⟩ <;> intro p hp <;>
      simp [RadixDedupe.empty] at hp)
    (by refine ⟨?_, ?_⟩ <;> intro p hp <;> simp [RadixDedupe.empty] at hp)
    (by decide)
  exact ⟨h.2.2.1, h.2.2.2.1⟩

/-- C6: folding any permutation of a finite list of valid networks into a
fresh CIDR aggregator yields the identical `all()` output — the stores end as
the set of coverage-maximal inputs of each family, which depends only on the
membership of the input list. -/
theorem claim_C6 (l1 l2 : List Net) (hp : l1.Perm l2) (hval : ∀ p ∈ l1, p.Valid) :
    (RadixDedupe.empty.addMany l1).all = (RadixDedupe.empty.addMany l2).all := by
  obtain ⟨h4, h6⟩ := addMany_perm_stores hp hval
  unfold RadixDedupe.all
  exact pySorted_congr ((h4.map Net.render).append (h6.map Net.render))

/-- C6 witness: inserting 10.0.0.0/8 and 10.1.2.3/32 in both orders gives the
same sorted output. -/
theorem claim_C6_witness :
    ([⟨4, 167772160, 8⟩, ⟨4, 167838211, 32⟩] : List Net).Perm
        [⟨4, 167838211, 32⟩, ⟨4, 167772160, 8⟩] ∧
      (∀ p ∈ ([⟨4, 167772160, 8⟩, ⟨4, 167838211, 32⟩] : List Net), p.Valid) ∧
      (RadixDedupe.empty.addMany [⟨4, 167772160, 8⟩, ⟨4, 167838211, 32⟩]).all =
        (RadixDedupe.empty.addMany [⟨4, 167838211, 32⟩, ⟨4, 167772160, 8⟩]).all := by
  have hperm : ([⟨4, 167772160, 8⟩, ⟨4, 167838211, 32⟩] : List Net).Perm
      [⟨4, 167838211, 32⟩, ⟨4, 167772160, 8⟩] :=
    List.Perm.swap (⟨4, 167838211, 32⟩ : Net) (⟨4, 167772160, 8⟩ : Net) []
  exact ⟨hperm, by decide, claim_C6 _ _ hperm (by decide)⟩

/-- C7: wildcard coverage is single-level only.  A wildcard marker stored at
the end of any nonempty suffix path covers every single extra label, whatever
else the trie holds (so wildcards on other branches cannot interfere); and
right after a successful wildcard insert, queries with two or more labels
prepended to the suffix are not contained. -/
theorem claim_C7 :
    (∀ (t : DomainTrie) (sfx : List String) (m : DNode) (x : String),
      sfx ≠ [] → nodeAt t.root sfx.reverse = some m → m.wild = true →
        t.containsL (x :: sfx) = true) ∧
    (∀ (t t2 : DomainTrie) (sfx : List String) (y z : String),
      t.addL true sfx = (true, t2) → t2.containsL (y :: z :: sfx) = false) := by
  constructor
  · intro t sfx m x hne hat hw
    have hrevne : sfx.reverse ≠ [] := by
      intro h2
      exact hne (by simpa using congrArg List.reverse h2)
    unfold DomainTrie.containsL
    rw [List.reverse_cons]
    exact containsGo_wild_append sfx.reverse t.root m hat hw hrevne x
  · intro t t2 sfx y z h
    have hgo := addL_some_inv h
    unfold DomainTrie.containsL
    have hrev : (y :: z :: sfx).reverse = sfx.reverse ++ [z, y] := by
      rw [List.reverse_cons, List.reverse_cons, List.append_assoc]
      rfl
    rw [hrev]
    exact addGo_wild_deep_false sfx.reverse t.root t2.root y z hgo

/-- C7 witness: after `add("*.example.com")`, `a.example.com` is contained and
`a.b.example.com` is not. -/
theorem claim_C7_witness :
    ((DomainTrie.empty.addL true ["example", "com"]).2).containsL
        ["a", "example", "com"] = true ∧
      ((DomainTrie.empty.addL true ["example", "com"]).2).containsL
        ["a", "b", "example", "com"] = false := by
  constructor
  · exact claim_C7.1 (DomainTrie.empty.addL true ["example", "com"]).2
      ["example", "com"] (DNode.node false true []) "a" (by decide) rfl rfl
  · exact claim_C7.2 DomainTrie.empty
      (DomainTrie.empty.addL true ["example", "com"]).2 ["example", "com"] "a" "b" rfl

/-- C8 (amended): the factory accepts, case-insensitively, exactly the names
`radix`/`pytricia`, `set`/`simpleset`/`simple` and `domain`/`domaintrie`,
returning a fresh empty instance of the matching strategy, and raises
`ValueError` (modelled `none`) on every other string — the alias spellings
`pytricia`, `simpleset`, `simple`, `domaintrie` also succeed, not only the
three names the claim lists. -/
theorem claim_C8 :
    (∀ kind : String, (Dedupe.get kind).isSome = true ↔
      pyLower kind ∈ (["radix", "pytricia", "set", "simpleset", "simple",
        "domain", "domaintrie"] : List String)) ∧
    Dedupe.get "set" = some (.simple SimpleSetDedupe.empty) ∧
    Dedupe.get "radix" = some (.radix RadixDedupe.empty) ∧
    Dedupe.get "domain" = some (.domain DomainTrieDedupe.empty) := by
  refine ⟨fun kind => ?_, rfl, rfl, rfl⟩
  unfold Dedupe.get
  split_ifs with h1 h2 h3 <;> simp_all <;> tauto

/-- C8 counterexample: the alias name `pytricia` is none of `set`, `radix`,
`domain`, yet the factory succeeds on it instead of failing. -/
theorem claim_C8_cex :
    (Dedupe.get "pytricia").isSome = true ∧
      pyLower "pytricia" ∉ (["set", "radix", "domain"] : List String) := by
  constructor <;> decide

/-- C9: for each strategy, `all()` sorts the stored entries' canonical
strings: the result is sorted in the modelled Python string order and is a
permutation of the rendered stored entries; being a function of the state, it
is deterministic. -/
theorem claim_C9 :
    (∀ s : SimpleSetDedupe, (s.all).Sorted PyLe ∧ (s.all).Perm s.seen) ∧
    (∀ s : RadixDedupe, (s.all).Sorted PyLe ∧
      (s.all).Perm (s.pt_v4.map Net.render ++ s.pt_v6.map Net.render)) ∧
    (∀ d : DomainTrieDedupe, (d.all).Sorted PyLe ∧ (d.all).Perm d.trie.iterDomains) :=
  ⟨fun _ => ⟨pySorted_sorted _, pySorted_perm _⟩,
   fun _ => ⟨pySorted_sorted _, pySorted_perm _⟩,
   fun _ => ⟨pySorted_sorted _, pySorted_perm _⟩⟩

/-- C10: the flat-set strategy lowercases every input: after `add(x)` any
case variant of `x` is contained; `contains` and `remove` cannot distinguish
case variants; and adding to a fresh set stores exactly the lowercase form. -/
theorem claim_C10 (s : SimpleSetDedupe) (x t : String) (h : pyLower t = pyLower x) :
    ((s.add x).2).contains t = true ∧
      (s.contains t = s.contains x ∧ s.remove t = s.remove x) ∧
      ((SimpleSetDedupe.empty.add x).2).all = [pyLower x] :=
  ⟨simpleSet_contains_variant s x t h, simpleSet_lower_blind s x t h,
    simpleSet_all_empty_add x⟩

/-- C10 witness: `ExAmple.COM` is a case variant of `example.com` and is seen
after adding it. -/
theorem claim_C10_witness :
    pyLower "ExAmple.COM" = pyLower "example.com" ∧
      ((SimpleSetDedupe.empty.add "example.com").2).contains "ExAmple.COM" = true ∧
      ((SimpleSetDedupe.empty.add "example.com").2).all = [pyLower "example.com"] := by
  have h : pyLower "ExAmple.COM" = pyLower "example.com" := by decide
  have h2 := claim_C10 SimpleSetDedupe.empty "example.com" "ExAmple.COM" h
  exact ⟨h, h2.1, h2.2.2⟩

end ForestWall
